import Mathlib

/-!
Verification of the stock-dashboard repository (src/app.py, src/model.py).

The embedding is over exact rationals: pandas/numpy float arithmetic is
idealised as arithmetic in ℚ, and Python's `round(x, 2)` is idealised as
exact rounding of a rational to a multiple of 1/100 (tie-breaking behaviour
of binary floats is abstracted away; no claim depends on a tie).

`model.py` calls sklearn's `LinearRegression`, which computes the ordinary
least-squares minimiser of `Close` against the day index.  We embed it by its
closed-form solution (`fitSlope`, `fitIntercept`); for a single sample the
centred solver returns slope 0 and intercept equal to that sample, and for
zero samples `fit` raises, which we embed as `none`.
-/

namespace StockApp

/-- Python's `round(x, 2)` idealised over ℚ: round to the nearest multiple
of `1/100`. -/
def round2 (q : ℚ) : ℚ := (round (q * 100) : ℤ) / 100

/-- Sum of the day indices `0, 1, ..., n-1` (the `Days` column of
`model.py`), as a rational. -/
def Sx (n : ℕ) : ℚ := ∑ i in Finset.range n, (i : ℚ)

/-- Sum of squares of the day indices. -/
def Sxx (n : ℕ) : ℚ := ∑ i in Finset.range n, (i : ℚ) ^ 2

/-- Sum of the first `n` values of the close series `y`. -/
def Sy (y : ℕ → ℚ) (n : ℕ) : ℚ := ∑ i in Finset.range n, y i

/-- Sum of `i * y i` over the first `n` indices. -/
def Sxy (y : ℕ → ℚ) (n : ℕ) : ℚ := ∑ i in Finset.range n, (i : ℚ) * y i

/-- Determinant of the 2×2 normal-equation system for OLS on the day
index: `n·Σi² − (Σi)²`. -/
def denom (n : ℕ) : ℚ := (n : ℚ) * Sxx n - Sx n ^ 2

/-- Slope of the least-squares line fitted by `LinearRegression` in
`model.py`.  When the system is degenerate (`n ≤ 1`) the centred solver
returns slope 0. -/
def fitSlope (y : ℕ → ℚ) (n : ℕ) : ℚ :=
  if denom n = 0 then 0 else ((n : ℚ) * Sxy y n - Sx n * Sy y n) / denom n

/-- Intercept of the fitted least-squares line: `(Σy − a·Σi)/n`. -/
def fitIntercept (y : ℕ → ℚ) (n : ℕ) : ℚ :=
  if n = 0 then 0 else (Sy y n - fitSlope y n * Sx n) / (n : ℚ)

/-- Residual sum of squares of the line `a·i + b` against the first `n`
values of `y`: the objective that ordinary least squares minimises. -/
def RSS (y : ℕ → ℚ) (n : ℕ) (a b : ℚ) : ℚ :=
  ∑ i in Finset.range n, (y i - (a * (i : ℚ) + b)) ^ 2

/-- `predict_stock_price` of `model.py`: assign `Days = 0..n-1`, fit
`Close` against `Days` by ordinary least squares, evaluate the fitted line
at `len(data) + 1` and round to 2 decimals.  `fit` on zero samples raises,
embedded as `none`. -/
def predict_stock_price (close : List ℚ) : Option ℚ :=
  if close.length = 0 then none
  else
    some (round2 (fitSlope (fun i => close.getD i 0) close.length * ((close.length : ℚ) + 1)
      + fitIntercept (fun i => close.getD i 0) close.length))

/-! ### The app pipeline (`app.py`)

A fetched data frame is a list of daily rows with the five price/volume
fields (all present: the embedding has no missing base values, matching a
successful fetch).  The chart tab adds the `SMA_20` and `EMA_20` columns;
`SMA_20` is `NaN` (here: `none`) on the first 19 rows, so `data.dropna()`
in the prediction tab keeps exactly the rows whose `SMA_20` is present. -/

/-- One fetched daily observation: the trading-date index and the columns
of the downloaded frame. -/
structure Row where
  date : ℤ
  opn : ℚ
  high : ℚ
  low : ℚ
  close : ℚ
  volume : ℚ
deriving Repr, DecidableEq

instance : Inhabited Row := ⟨⟨0, 0, 0, 0, 0, 0⟩⟩

/-- A row after the chart tab has added the two indicator columns.
`sma = none` embeds a `NaN` cell in the `SMA_20` column. -/
structure ChartRow extends Row where
  sma : Option ℚ
  ema : ℚ
deriving Repr, DecidableEq

/-- `Close.rolling(20).mean()` at position `i`: the mean of the 20 closes
ending at `i`, `NaN` (`none`) while the window has not filled. -/
def SMA20 (close : List ℚ) (i : ℕ) : Option ℚ :=
  if 19 ≤ i ∧ i < close.length then
    some (((close.take (i + 1)).drop (i - 19)).sum / 20)
  else none

/-- Tail of `Close.ewm(span=20, adjust=False).mean()`: starting from the
running value `prev`, emit `α·x + (1−α)·prev` for each remaining close. -/
def ewmTail (a : ℚ) : ℚ → List ℚ → List ℚ
  | _, [] => []
  | prev, x :: xs =>
    let e := a * x + (1 - a) * prev
    e :: ewmTail a e xs

/-- `Close.ewm(span=20, adjust=False).mean()`: the first value seeds the
recursion, `α = 2/(20+1)`. -/
def EMA20 (close : List ℚ) : List ℚ :=
  match close with
  | [] => []
  | x :: xs => x :: ewmTail (2 / 21) x xs

/-- The chart tab's column assignments: attach `SMA_20` and `EMA_20` to
each row by position. -/
def addIndicators (rows : List Row) : List ChartRow :=
  (List.range rows.length).map fun i =>
    { toRow := rows.getD i default
      sma := SMA20 (rows.map Row.close) i
      ema := (EMA20 (rows.map Row.close)).getD i 0 }

/-- `data.dropna()`: keep the rows in which every column is present.  The
base columns and `EMA_20` are always present, so only `SMA_20` filters. -/
def dropna (rows : List ChartRow) : List ChartRow :=
  rows.filter fun r => r.sma.isSome

/-- The confidence heuristic of the prediction tab:
`min(95, 70 + abs(delta) * 2)`. -/
def confidenceOf (delta : ℚ) : ℚ := min 95 (70 + |delta| * 2)

/-- What the main block of `app.py` renders: either the invalid-data error
with nothing else, or the metric scalars, the chart rows, and — when the
prediction call does not raise — the forecast and confidence texts. -/
structure RenderState where
  errorShown : Bool
  metrics : Option (ℚ × ℚ × ℚ × ℚ × ℚ)
  chart : Option (List ChartRow)
  forecast : Option ℚ
  confidence : Option ℚ
deriving Repr, DecidableEq

/-- The main logic of `app.py` for a fetched frame `rows`: stop with the
error banner when the frame is empty or shorter than 2; otherwise render
the metrics, add the indicator columns, and run `predict_stock_price` on
`data.dropna()` — when that call raises (empty input) the prediction tab
shows neither forecast nor confidence. -/
def runPipeline (rows : List Row) : RenderState :=
  if rows.length < 2 then
    { errorShown := true, metrics := none, chart := none,
      forecast := none, confidence := none }
  else
    let lastClose := (rows.getD (rows.length - 1) default).close
    let prevClose := (rows.getD (rows.length - 2) default).close
    let delta := lastClose - prevClose
    let chart := addIndicators rows
    match predict_stock_price ((dropna chart).map fun r => r.close) with
    | none =>
        { errorShown := false
          metrics := some ((rows.getD (rows.length - 1) default).opn, lastClose,
            (rows.getD (rows.length - 1) default).high,
            (rows.getD (rows.length - 1) default).volume, delta)
          chart := some chart
          forecast := none
          confidence := none }
    | some p =>
        { errorShown := false
          metrics := some ((rows.getD (rows.length - 1) default).opn, lastClose,
            (rows.getD (rows.length - 1) default).high,
            (rows.getD (rows.length - 1) default).volume, delta)
          chart := some chart
          forecast := some p
          confidence := some (confidenceOf delta) }

/-- `predict_stock_price` as called with the caller's frame in scope:
`data.reset_index()` copies, so the function returns its result alongside
the caller's untouched frame. -/
def predict_on_frame (caller : List Row) : Option ℚ × List Row :=
  let data := caller
  (predict_stock_price (data.map Row.close), caller)

/-- Sample frame of 20 rows with closes 0..19 (used by a witness). -/
def w5rows : List Row :=
  (List.range 20).map fun i =>
    { date := (i : ℤ), opn := (i : ℚ), high := (i : ℚ), low := (i : ℚ),
      close := (i : ℚ), volume := 1 }

/-! ### Closed forms for the index sums and non-degeneracy -/

theorem Sx_eq (n : ℕ) : Sx n = (n : ℚ) * ((n : ℚ) - 1) / 2 := by
  induction n with
  | zero => simp [Sx]
  | succ k ih =>
    rw [Sx, Finset.sum_range_succ, ← Sx, ih]
    push_cast
    ring

theorem Sxx_eq (n : ℕ) : Sxx n = (n : ℚ) * ((n : ℚ) - 1) * (2 * (n : ℚ) - 1) / 6 := by
  induction n with
  | zero => simp [Sxx]
  | succ k ih =>
    rw [Sxx, Finset.sum_range_succ, ← Sxx, ih]
    push_cast
    ring

theorem denom_eq (n : ℕ) :
    denom n = (n : ℚ) ^ 2 * ((n : ℚ) - 1) * ((n : ℚ) + 1) / 12 := by
  rw [denom, Sx_eq, Sxx_eq]
  ring

theorem denom_pos (n : ℕ) (h : 2 ≤ n) : 0 < denom n := by
  have hn : (2 : ℚ) ≤ (n : ℚ) := by exact_mod_cast h
  rw [denom_eq]
  have h1 : (0 : ℚ) < (n : ℚ) ^ 2 := by positivity
  have h2 : (0 : ℚ) < (n : ℚ) - 1 := by linarith
  have h3 : (0 : ℚ) < (n : ℚ) + 1 := by linarith
  positivity

theorem denom_ne_zero (n : ℕ) (h : 2 ≤ n) : denom n ≠ 0 :=
  ne_of_gt (denom_pos n h)

theorem n_le_one_of_denom_eq_zero (n : ℕ) (h : denom n = 0) : n ≤ 1 := by
  by_contra hn
  exact denom_ne_zero n (by omega) h

/-! ### The normal equations of the fitted line -/

theorem sum_residuals (y : ℕ → ℚ) (n : ℕ) (a b : ℚ) :
    ∑ i in Finset.range n, (y i - (a * (i : ℚ) + b))
      = Sy y n - a * Sx n - b * (n : ℚ) := by
  rw [Sy, Sx]
  simp only [Finset.sum_sub_distrib, Finset.sum_add_distrib, ← Finset.mul_sum,
    Finset.sum_const, Finset.card_range, nsmul_eq_mul]
  ring

theorem sum_x_residuals (y : ℕ → ℚ) (n : ℕ) (a b : ℚ) :
    ∑ i in Finset.range n, (i : ℚ) * (y i - (a * (i : ℚ) + b))
      = Sxy y n - a * Sxx n - b * Sx n := by
  rw [Sxy, Sxx, Sx, Finset.mul_sum, Finset.mul_sum]
  rw [← Finset.sum_sub_distrib, ← Finset.sum_sub_distrib]
  apply Finset.sum_congr rfl
  intro i _
  ring

theorem normal_eq_one (y : ℕ → ℚ) (n : ℕ) :
    Sy y n - fitSlope y n * Sx n - fitIntercept y n * (n : ℚ) = 0 := by
  rcases Nat.eq_zero_or_pos n with h0 | hpos
  · subst h0
    simp [Sy, Sx]
  · have hn : (n : ℚ) ≠ 0 := by positivity
    rw [fitIntercept, if_neg (Nat.pos_iff_ne_zero.mp hpos)]
    field_simp

theorem normal_eq_two (y : ℕ → ℚ) (n : ℕ) :
    Sxy y n - fitSlope y n * Sxx n - fitIntercept y n * Sx n = 0 := by
  by_cases hd : denom n = 0
  · have hn : n ≤ 1 := n_le_one_of_denom_eq_zero n hd
    interval_cases n
    · simp [Sxy, Sxx, Sx]
    · simp [Sxy, Sxx, Sx, fitSlope, fitIntercept]
  · have hn0 : n ≠ 0 := by
      intro h
      subst h
      exact hd (by simp [denom, Sxx, Sx])
    have hnq : (n : ℚ) ≠ 0 := Nat.cast_ne_zero.mpr hn0
    have hB : fitIntercept y n * (n : ℚ) = Sy y n - fitSlope y n * Sx n := by
      rw [fitIntercept, if_neg hn0]
      field_simp
    have hA : fitSlope y n * denom n = (n : ℚ) * Sxy y n - Sx n * Sy y n := by
      rw [fitSlope, if_neg hd]
      field_simp
    rw [denom] at hA
    have key : (n : ℚ) * (Sxy y n - fitSlope y n * Sxx n - fitIntercept y n * Sx n) = 0 := by
      linear_combination -hA - Sx n * hB
    rcases mul_eq_zero.mp key with h | h
    · exact absurd h hnq
    · exact h

/-! ### The fitted line minimises the residual sum of squares -/

theorem fit_is_least_squares (y : ℕ → ℚ) (n : ℕ) (a b : ℚ) :
    RSS y n (fitSlope y n) (fitIntercept y n) ≤ RSS y n a b := by
  have hpt : ∀ i ∈ Finset.range n,
      (y i - (a * (i : ℚ) + b)) ^ 2
        = (y i - (fitSlope y n * (i : ℚ) + fitIntercept y n)) ^ 2
          + ((fitSlope y n - a) * (i : ℚ) + (fitIntercept y n - b)) ^ 2
          + (2 * (fitSlope y n - a)) * ((i : ℚ) * (y i - (fitSlope y n * (i : ℚ) + fitIntercept y n)))
          + (2 * (fitIntercept y n - b)) * (y i - (fitSlope y n * (i : ℚ) + fitIntercept y n)) := by
    intro i _
    ring
  have expand : RSS y n a b
      = RSS y n (fitSlope y n) (fitIntercept y n)
        + (∑ i in Finset.range n, ((fitSlope y n - a) * (i : ℚ) + (fitIntercept y n - b)) ^ 2)
        + (2 * (fitSlope y n - a)) * (Sxy y n - fitSlope y n * Sxx n - fitIntercept y n * Sx n)
        + (2 * (fitIntercept y n - b)) * (Sy y n - fitSlope y n * Sx n - fitIntercept y n * (n : ℚ)) := by
    rw [RSS, Finset.sum_congr rfl hpt, Finset.sum_add_distrib, Finset.sum_add_distrib,
      Finset.sum_add_distrib, ← Finset.mul_sum, ← Finset.mul_sum,
      sum_x_residuals, sum_residuals, RSS]
  rw [expand, normal_eq_one y n, normal_eq_two y n]
  have hs : (0 : ℚ) ≤ ∑ i in Finset.range n,
      ((fitSlope y n - a) * (i : ℚ) + (fitIntercept y n - b)) ^ 2 :=
    Finset.sum_nonneg fun i _ => sq_nonneg _
  linarith

/-! ### Exact recovery on perfectly linear data -/

theorem fit_on_linear (y : ℕ → ℚ) (n : ℕ) (m c : ℚ) (hn : 2 ≤ n)
    (hy : ∀ i < n, y i = m * (i : ℚ) + c) :
    fitSlope y n = m ∧ fitIntercept y n = c := by
  have hSy : Sy y n = m * Sx n + (n : ℚ) * c := by
    have h : ∀ i ∈ Finset.range n, y i = m * (i : ℚ) + c :=
      fun i hi => hy i (Finset.mem_range.mp hi)
    rw [Sy, Finset.sum_congr rfl h, Finset.sum_add_distrib, ← Finset.mul_sum,
      Finset.sum_const, Finset.card_range, nsmul_eq_mul, Sx]
  have hSxy : Sxy y n = m * Sxx n + c * Sx n := by
    have h : ∀ i ∈ Finset.range n, (i : ℚ) * y i = m * (i : ℚ) ^ 2 + c * (i : ℚ) := by
      intro i hi
      rw [hy i (Finset.mem_range.mp hi)]
      ring
    rw [Sxy, Finset.sum_congr rfl h, Finset.sum_add_distrib, ← Finset.mul_sum,
      ← Finset.mul_sum, Sxx, Sx]
  have hd := denom_ne_zero n hn
  have hnq : (n : ℚ) ≠ 0 := Nat.cast_ne_zero.mpr (by omega)
  have hslope : fitSlope y n = m := by
    rw [fitSlope, if_neg hd, hSxy, hSy, div_eq_iff hd, denom]
    ring
  refine ⟨hslope, ?_⟩
  rw [fitIntercept, if_neg (by omega : ¬n = 0), hslope, hSy, div_eq_iff hnq]
  ring

/-- `predict_stock_price` on a non-empty series, unfolded. -/
theorem predict_eq (close : List ℚ) (h : close ≠ []) :
    predict_stock_price close
      = some (round2 (fitSlope (fun i => close.getD i 0) close.length * ((close.length : ℚ) + 1)
          + fitIntercept (fun i => close.getD i 0) close.length)) := by
  rw [predict_stock_price, if_neg (by simpa using h)]

theorem ne_nil_of_one_le_length {close : List ℚ} (h : 1 ≤ close.length) : close ≠ [] := by
  intro h0
  rw [h0] at h
  simp at h

/-! ### Claim theorems about `predict_stock_price` -/

/-- C1: on an input of length `n ≥ 2` whose Close values lie exactly on the
line `Close_i = m·i + c`, `predict_stock_price` returns
`round(m·(n+1) + c, 2)`: the least-squares fit recovers the slope and
intercept exactly and the forecast is the line one past `n`. -/
theorem C1_linear_data_exact_recovery (close : List ℚ) (m c : ℚ) (hn : 2 ≤ close.length)
    (hy : ∀ i < close.length, close.getD i 0 = m * (i : ℚ) + c) :
    predict_stock_price close = some (round2 (m * ((close.length : ℚ) + 1) + c)) := by
  have hfit := fit_on_linear (fun i => close.getD i 0) close.length m c hn hy
  rw [predict_eq close (ne_nil_of_one_le_length (by omega)), hfit.1, hfit.2]

/-- Witness for C1 at `close = [1, 3, 5]`, `m = 2`, `c = 1`. -/
theorem C1_witness :
    predict_stock_price [(1 : ℚ), 3, 5]
      = some (round2 (2 * ((([(1 : ℚ), 3, 5].length) : ℚ) + 1) + 1)) :=
  C1_linear_data_exact_recovery [1, 3, 5] 2 1 (by norm_num)
    (by
      intro i hi
      simp at hi
      interval_cases i <;> norm_num [List.getD])

/-- C2: on every non-empty input, `predict_stock_price` fits ordinary least
squares of Close on the day index `0..n-1` (the fitted coefficients minimise
the residual sum of squares over all lines) and returns the fitted line
evaluated at day index `n + 1`, rounded to 2 decimal places. -/
theorem C2_ols_fit_and_horizon (close : List ℚ) (h : close ≠ []) :
    predict_stock_price close
      = some (round2 (fitSlope (fun i => close.getD i 0) close.length * ((close.length : ℚ) + 1)
          + fitIntercept (fun i => close.getD i 0) close.length))
    ∧ ∀ a b : ℚ,
        RSS (fun i => close.getD i 0) close.length
            (fitSlope (fun i => close.getD i 0) close.length)
            (fitIntercept (fun i => close.getD i 0) close.length)
          ≤ RSS (fun i => close.getD i 0) close.length a b :=
  ⟨predict_eq close h, fun a b => fit_is_least_squares _ _ a b⟩

/-- Witness for C2 at `close = [1, 2]`, comparing against the line `5·i + 7`. -/
theorem C2_witness :
    (predict_stock_price [(1 : ℚ), 2]
      = some (round2 (fitSlope (fun i => [(1 : ℚ), 2].getD i 0) [(1 : ℚ), 2].length
            * ((([(1 : ℚ), 2].length) : ℚ) + 1)
          + fitIntercept (fun i => [(1 : ℚ), 2].getD i 0) [(1 : ℚ), 2].length)))
    ∧ RSS (fun i => [(1 : ℚ), 2].getD i 0) [(1 : ℚ), 2].length
          (fitSlope (fun i => [(1 : ℚ), 2].getD i 0) [(1 : ℚ), 2].length)
          (fitIntercept (fun i => [(1 : ℚ), 2].getD i 0) [(1 : ℚ), 2].length)
        ≤ RSS (fun i => [(1 : ℚ), 2].getD i 0) [(1 : ℚ), 2].length 5 7 := by
  have h := C2_ols_fit_and_horizon [(1 : ℚ), 2] (by simp)
  exact ⟨h.1, h.2 5 7⟩

/-- C7: on an input of length `n ≥ 2` whose Close values are all the
constant `k`, `predict_stock_price` returns `round(k, 2)`. -/
theorem C7_constant_series (close : List ℚ) (k : ℚ) (hn : 2 ≤ close.length)
    (hy : ∀ i < close.length, close.getD i 0 = k) :
    predict_stock_price close = some (round2 k) := by
  have hy' : ∀ i < close.length, close.getD i 0 = 0 * (i : ℚ) + k := by
    intro i hi
    rw [hy i hi]
    ring
  have hfit := fit_on_linear (fun i => close.getD i 0) close.length 0 k hn hy'
  rw [predict_eq close (ne_nil_of_one_le_length (by omega)), hfit.1, hfit.2]
  norm_num

/-- Witness for C7 at `close = [4, 4, 4]`, `k = 4`. -/
theorem C7_witness : predict_stock_price [(4 : ℚ), 4, 4] = some (round2 4) :=
  C7_constant_series [4, 4, 4] 4 (by norm_num)
    (by
      intro i hi
      simp at hi
      interval_cases i <;> norm_num [List.getD])

/-! ### `dropna` keeps exactly the rows from position 19 on -/

theorem filter_nineteen_le_range (n : ℕ) :
    (List.range n).filter (fun i => 19 ≤ i) = (List.range n).drop 19 := by
  induction n with
  | zero => rfl
  | succ k ih =>
    by_cases hk : 19 ≤ k
    · rw [List.range_succ, List.filter_append,
        List.drop_append_of_le_length (by simpa using hk), ih]
      simp [hk]
    · have h1 : (List.range (k + 1)).filter (fun i => 19 ≤ i) = [] := by
        rw [List.filter_eq_nil_iff]
        intro a ha
        have := List.mem_range.mp ha
        simp only [decide_eq_true_eq]
        omega
      rw [h1, List.drop_eq_nil_of_le (by simp only [List.length_range]; omega)]

theorem map_close_getD_range (rows : List Row) :
    (List.range rows.length).map (fun i => (rows.getD i default).close)
      = rows.map Row.close := by
  apply List.ext_getElem
  · simp
  · intro i h1 h2
    simp only [List.getElem_map, List.getElem_range]
    rw [List.getD_eq_getElem rows default (by simpa using h1)]

theorem dropna_closes (rows : List Row) :
    (dropna (addIndicators rows)).map (fun r => r.close)
      = (rows.map Row.close).drop 19 := by
  rw [dropna, addIndicators, List.filter_map, List.map_map]
  have hcongr : ∀ i ∈ List.range rows.length,
      ((fun r : ChartRow => r.sma.isSome) ∘ fun i =>
        ({ toRow := rows.getD i default
           sma := SMA20 (rows.map Row.close) i
           ema := (EMA20 (rows.map Row.close)).getD i 0 } : ChartRow)) i
        = (fun i => decide (19 ≤ i)) i := by
    intro i hi
    have hi' : i < rows.length := List.mem_range.mp hi
    simp only [Function.comp_apply, SMA20, List.length_map]
    by_cases h19 : 19 ≤ i
    · rw [if_pos ⟨h19, hi'⟩]
      simp [h19]
    · rw [if_neg (by tauto)]
      simp [h19]
  rw [List.filter_congr hcongr, filter_nineteen_le_range, List.map_drop]
  have : (List.range rows.length).map
      ((fun r : ChartRow => r.close) ∘ fun i =>
        ({ toRow := rows.getD i default
           sma := SMA20 (rows.map Row.close) i
           ema := (EMA20 (rows.map Row.close)).getD i 0 } : ChartRow))
      = rows.map Row.close := map_close_getD_range rows
  rw [this]

/-! ### Sums of list windows as interval sums -/

theorem list_sum_eq_sum_range (l : List ℚ) :
    l.sum = ∑ j in Finset.range l.length, l.getD j 0 := by
  induction l with
  | nil => simp
  | cons x xs ih =>
    rw [List.sum_cons, List.length_cons, Finset.sum_range_succ']
    simp only [List.getD_cons_succ, List.getD_cons_zero]
    rw [← ih]
    ring

theorem sma_window_sum (close : List ℚ) (i : ℕ) (h19 : 19 ≤ i) (hlen : i < close.length) :
    ((close.take (i + 1)).drop (i - 19)).sum
      = ∑ j in Finset.Icc (i - 19) i, close.getD j 0 := by
  have hLlen : ((close.take (i + 1)).drop (i - 19)).length = 20 := by
    rw [List.length_drop, List.length_take, min_eq_left (by omega : i + 1 ≤ close.length)]
    omega
  rw [list_sum_eq_sum_range, hLlen, ← Nat.Ico_succ_right, Finset.sum_Ico_eq_sum_range]
  have h20 : i + 1 - (i - 19) = 20 := by omega
  rw [h20]
  apply Finset.sum_congr rfl
  intro j hj
  have hj20 : j < 20 := Finset.mem_range.mp hj
  have h1 : j < ((close.take (i + 1)).drop (i - 19)).length := by omega
  have h2 : i - 19 + j < close.length := by omega
  rw [List.getD_eq_getElem _ 0 h1, List.getD_eq_getElem close 0 h2,
    List.getElem_drop, List.getElem_take]

/-! ### The exponential moving average satisfies the standard recursion -/

theorem ewmTail_getD (a : ℚ) (xs : List ℚ) (x : ℚ) (i : ℕ) (h : i < xs.length) :
    (ewmTail a x xs).getD i 0
      = a * xs.getD i 0 + (1 - a) * ((x :: ewmTail a x xs).getD i 0) := by
  induction xs generalizing x i with
  | nil => simp at h
  | cons y ys ih =>
    cases i with
    | zero => simp [ewmTail]
    | succ j =>
      have hj : j < ys.length := by simpa using h
      show (ewmTail a (a * y + (1 - a) * x) ys).getD j 0 = _
      rw [ih (a * y + (1 - a) * x) j hj]
      simp [ewmTail, List.getD_cons_succ]

/-! ### Remaining claim theorems -/

/-- C3: a fetched frame that is empty or has fewer than 2 rows hits the
user-visible error path and nothing downstream is rendered: no metrics, no
chart, no forecast, no confidence. -/
theorem C3_insufficient_data_error (rows : List Row) (h : rows.length < 2) :
    runPipeline rows
      = { errorShown := true, metrics := none, chart := none,
          forecast := none, confidence := none } := by
  rw [runPipeline, if_pos h]

/-- Witness for C3 at a single-row frame. -/
theorem C3_witness :
    runPipeline [({ date := 0, opn := 1, high := 2, low := 1, close := 2, volume := 5 } : Row)]
      = { errorShown := true, metrics := none, chart := none,
          forecast := none, confidence := none } :=
  C3_insufficient_data_error _ (by simp)

/-- C4: with 2 ≤ n ≤ 19 rows the length check passes (the error banner is
not shown and the metrics render), but `SMA_20` is `NaN` on every row, so
`data.dropna()` is empty, `predict_stock_price` is invoked on an empty
sequence, and the prediction tab produces no forecast. -/
theorem C4_prediction_fails_short_series (rows : List Row)
    (h2 : 2 ≤ rows.length) (h19 : rows.length ≤ 19) :
    (dropna (addIndicators rows)) = []
    ∧ predict_stock_price ((dropna (addIndicators rows)).map fun r => r.close) = none
    ∧ (runPipeline rows).errorShown = false
    ∧ (runPipeline rows).metrics.isSome = true
    ∧ (runPipeline rows).forecast = none := by
  have hdrop : (dropna (addIndicators rows)).map (fun r => r.close) = [] := by
    rw [dropna_closes]
    exact List.drop_eq_nil_of_le (by simpa using h19)
  have hnil : dropna (addIndicators rows) = [] := by
    have := congrArg List.length hdrop
    simpa using List.eq_nil_of_length_eq_zero (by simpa using this)
  have hpred : predict_stock_price ((dropna (addIndicators rows)).map fun r => r.close)
      = none := by
    rw [hdrop]
    rfl
  have hcond : ¬rows.length < 2 := by omega
  refine ⟨hnil, hpred, ?_, ?_, ?_⟩ <;>
    · rw [runPipeline, if_neg hcond]
      simp [hpred]

/-- Witness for C4 at a 2-row frame. -/
theorem C4_witness :
    (dropna (addIndicators
        [({ date := 0, opn := 1, high := 2, low := 1, close := 2, volume := 5 } : Row),
         { date := 1, opn := 2, high := 3, low := 2, close := 3, volume := 6 }])) = []
    ∧ predict_stock_price ((dropna (addIndicators
        [({ date := 0, opn := 1, high := 2, low := 1, close := 2, volume := 5 } : Row),
         { date := 1, opn := 2, high := 3, low := 2, close := 3, volume := 6 }])).map
          fun r => r.close) = none
    ∧ (runPipeline
        [({ date := 0, opn := 1, high := 2, low := 1, close := 2, volume := 5 } : Row),
         { date := 1, opn := 2, high := 3, low := 2, close := 3, volume := 6 }]).errorShown = false
    ∧ (runPipeline
        [({ date := 0, opn := 1, high := 2, low := 1, close := 2, volume := 5 } : Row),
         { date := 1, opn := 2, high := 3, low := 2, close := 3, volume := 6 }]).metrics.isSome = true
    ∧ (runPipeline
        [({ date := 0, opn := 1, high := 2, low := 1, close := 2, volume := 5 } : Row),
         { date := 1, opn := 2, high := 3, low := 2, close := 3, volume := 6 }]).forecast = none :=
  C4_prediction_fails_short_series _ (by simp) (by simp)

/-- C5: with n ≥ 20 rows, the series handed to `predict_stock_price` is the
fetched Close series with its first 19 observations removed, so the model is
fit on the last n − 19 closes (day index 0..n−20) and the forecast is the
fitted line at index (n − 19) + 1. -/
theorem C5_model_fit_on_tail (rows : List Row) (h : 20 ≤ rows.length) :
    (dropna (addIndicators rows)).map (fun r => r.close) = (rows.map Row.close).drop 19
    ∧ (runPipeline rows).forecast = predict_stock_price ((rows.map Row.close).drop 19)
    ∧ predict_stock_price ((rows.map Row.close).drop 19)
        = some (round2
            (fitSlope (fun i => ((rows.map Row.close).drop 19).getD i 0) (rows.length - 19)
                * (((rows.length - 19 : ℕ) : ℚ) + 1)
              + fitIntercept (fun i => ((rows.map Row.close).drop 19).getD i 0)
                  (rows.length - 19))) := by
  have hlen : ((rows.map Row.close).drop 19).length = rows.length - 19 := by simp
  have hne : (rows.map Row.close).drop 19 ≠ [] := by
    apply ne_nil_of_one_le_length
    omega
  have hp := predict_eq _ hne
  rw [hlen] at hp
  refine ⟨dropna_closes rows, ?_, hp⟩
  have hrw : predict_stock_price ((dropna (addIndicators rows)).map fun r => r.close)
      = predict_stock_price ((rows.map Row.close).drop 19) := by
    rw [dropna_closes]
  rw [runPipeline, if_neg (by omega : ¬rows.length < 2)]
  simp [hrw, hp]

/-- Witness for C5 at a 20-row frame with closes 0..19. -/
theorem C5_witness :
    (dropna (addIndicators w5rows)).map (fun r => r.close) = (w5rows.map Row.close).drop 19
    ∧ (runPipeline w5rows).forecast = predict_stock_price ((w5rows.map Row.close).drop 19)
    ∧ predict_stock_price ((w5rows.map Row.close).drop 19)
        = some (round2
            (fitSlope (fun i => ((w5rows.map Row.close).drop 19).getD i 0) (w5rows.length - 19)
                * (((w5rows.length - 19 : ℕ) : ℚ) + 1)
              + fitIntercept (fun i => ((w5rows.map Row.close).drop 19).getD i 0)
                  (w5rows.length - 19))) :=
  C5_model_fit_on_tail w5rows (by decide)

/-- C6: the displayed confidence is `min(95, 70 + |delta| * 2)` for
`delta = last_close − previous_close`; it is 70 at delta 0, 95 at delta 15,
80 at delta −5, and always lies in [70, 95]. -/
theorem C6_confidence_heuristic :
    confidenceOf 0 = 70 ∧ confidenceOf 15 = 95 ∧ confidenceOf (-5) = 80
    ∧ ∀ lastClose prevClose : ℚ,
        confidenceOf (lastClose - prevClose)
            = min 95 (70 + |lastClose - prevClose| * 2)
        ∧ 70 ≤ confidenceOf (lastClose - prevClose)
        ∧ confidenceOf (lastClose - prevClose) ≤ 95 := by
  refine ⟨by norm_num [confidenceOf], by norm_num [confidenceOf],
    by norm_num [confidenceOf], ?_⟩
  intro lc pc
  have habs : (0 : ℚ) ≤ |lc - pc| := abs_nonneg _
  exact ⟨rfl, le_min (by norm_num) (by linarith), min_le_left _ _⟩

/-- C8: `SMA_20` at position i ≥ 19 is the arithmetic mean of the 20 closes
ending at i and is absent for i < 19; `EMA_20` is seeded by the first close
and follows `EMA_i = α·Close_i + (1−α)·EMA_{i−1}` with `α = 2/21`. -/
theorem C8_sma_ema_formulas (close : List ℚ) (i : ℕ) :
    (19 ≤ i → i < close.length →
      SMA20 close i = some ((∑ j in Finset.Icc (i - 19) i, close.getD j 0) / 20))
    ∧ (i < 19 → SMA20 close i = none)
    ∧ (0 < close.length → (EMA20 close).getD 0 0 = close.getD 0 0)
    ∧ (∀ j, j + 1 < close.length →
        (EMA20 close).getD (j + 1) 0
          = 2 / 21 * close.getD (j + 1) 0 + (1 - 2 / 21) * (EMA20 close).getD j 0) := by
  refine ⟨fun h19 hlen => ?_, fun hlt => ?_, fun hpos => ?_, fun j hj => ?_⟩
  · rw [SMA20, if_pos ⟨h19, hlen⟩, sma_window_sum close i h19 hlen]
  · rw [SMA20, if_neg (fun hc => by omega)]
  · cases close with
    | nil => simp at hpos
    | cons x xs => simp [EMA20]
  · cases close with
    | nil => simp at hj
    | cons x xs =>
      have hx : j < xs.length := by simpa using hj
      simp only [EMA20, List.getD_cons_succ]
      rw [ewmTail_getD (2 / 21) xs x j hx]

/-- Witness for C8 on a 20-row series, at positions 19 (window full),
5 (window not full), 0 (seed) and 1 (recursion step). -/
theorem C8_witness :
    (SMA20 (List.replicate 20 (3 : ℚ)) 19
        = some ((∑ j in Finset.Icc (19 - 19) 19, (List.replicate 20 (3 : ℚ)).getD j 0) / 20))
    ∧ SMA20 (List.replicate 20 (3 : ℚ)) 5 = none
    ∧ (EMA20 (List.replicate 20 (3 : ℚ))).getD 0 0 = (List.replicate 20 (3 : ℚ)).getD 0 0
    ∧ (EMA20 (List.replicate 20 (3 : ℚ))).getD (0 + 1) 0
        = 2 / 21 * (List.replicate 20 (3 : ℚ)).getD (0 + 1) 0
          + (1 - 2 / 21) * (EMA20 (List.replicate 20 (3 : ℚ))).getD 0 0 :=
  ⟨(C8_sma_ema_formulas (List.replicate 20 3) 19).1 (by norm_num) (by simp),
   (C8_sma_ema_formulas (List.replicate 20 3) 5).2.1 (by norm_num),
   (C8_sma_ema_formulas (List.replicate 20 3) 19).2.2.1 (by simp),
   (C8_sma_ema_formulas (List.replicate 20 3) 19).2.2.2 0 (by simp)⟩

/-- C9: `predict_stock_price` has no side effects: it works on a
reset-index copy, the caller's frame is unchanged after the call, and the
result is the pure function of the input closes. -/
theorem C9_pure_no_frame_mutation (caller : List Row) :
    (predict_on_frame caller).2 = caller
    ∧ (predict_on_frame caller).1 = predict_stock_price (caller.map Row.close) :=
  ⟨rfl, rfl⟩

/-- C10: for two frames whose Close columns agree element-wise, the
prediction agrees, whatever the date, Open, High, Low or Volume fields are:
the forecast reads only the Close column. -/
theorem C10_depends_only_on_close (rows1 rows2 : List Row)
    (h : rows1.map Row.close = rows2.map Row.close) :
    (predict_on_frame rows1).1 = (predict_on_frame rows2).1 := by
  show predict_stock_price (rows1.map Row.close) = predict_stock_price (rows2.map Row.close)
  rw [h]

/-- Witness for C10: two 2-row frames equal only in their Close columns. -/
theorem C10_witness :
    (predict_on_frame
        [({ date := 0, opn := 1, high := 2, low := 1, close := 2, volume := 5 } : Row),
         { date := 1, opn := 2, high := 3, low := 2, close := 3, volume := 6 }]).1
      = (predict_on_frame
        [({ date := 7, opn := 9, high := 11, low := 0, close := 2, volume := 50 } : Row),
         { date := 8, opn := 10, high := 12, low := 1, close := 3, volume := 60 }]).1 :=
  C10_depends_only_on_close _ _ (by simp)

end StockApp
